import Mathlib

/-!
# Verification of the `cake` chain builder

A shallow embedding of the `cake` package (github.com/tylermmorton/cake):
the chain-construction function `Layered` (the current version, the one
shipped with `getLayerValue`, `If` and `IfCallback`), the legacy `Layered`
from `layers.go`, and the example `Words` layers from the test fixtures.

Modelling choices:

* A Go layer value is abstracted by `Layer`: `usable` records the result of
  `getLayerValue` (the layer is a non-nil, non-zero pointer), `settable`
  records `FieldByName(interfaceName).IsValid() && CanSet()`, and `val` is
  an opaque tag standing for the identity of the underlying Go object.
  `Layered` reads nothing else of a layer.
* The base value is symbolic: the delegate-slot write `field.Set(base)` is
  recorded as the target `Target.base`, and a write of `layers[j]` as
  `Target.layer j`.  The builder's observable effect is the list of
  slot writes it performs, in order, plus which value it returns.
* `BuildResult` records the four ways the Go function can come back:
  `retBase` for the `len(layers) == 0` early return (returns `base, nil`),
  `ok e slots` for `return layers[e], nil` after performing `slots`,
  `err i slots` for `return *new(T), fmt.Errorf(...)` raised at layer `i`
  after performing `slots` (the zero composite is the absence of a payload),
  and `outOfRange` for the run-time panic of `layers[entryLayer]` when
  `entryLayer` is still `-1`.
* The outer `for` loop of `Layered` is written with an explicit fuel
  parameter so that every definition is structurally recursive and
  executable; `outOfFuel` marks fuel exhaustion.  `LayeredRun` supplies
  fuel `layers.length`, and `go_props` below proves this fuel is
  never exhausted (each iteration advances the index by at least one),
  which is the termination argument for the Go loop.
* Alongside its result, `go` returns the list of indices the outer loop's
  head tested (in order), used to state the single-pass property.
-/

/-- Where a delegate-slot write points: to the layer at index `j` of the
input list, or to the base value. -/
inductive Target where
  | layer (j : Nat)
  | base
deriving DecidableEq, Repr

/-- Abstraction of one element of the `layers` slice.  `usable` is the
verdict of `getLayerValue` (non-nil, non-zero pointer); `settable` is the
verdict of `targetField.IsValid() && targetField.CanSet()`; `val` tags the
identity of the Go object and is never read by the builder. -/
structure Layer where
  usable : Bool
  settable : Bool
  val : Nat
deriving DecidableEq, Repr

/-- The outcome of a run of `Layered` (or of the legacy `Layered`). -/
inductive BuildResult where
  /-- `len(layers) == 0`: `return base, nil`. -/
  | retBase
  /-- `return layers[e], nil` after the slot writes `slots` (in order). -/
  | ok (e : Nat) (slots : List (Nat × Target))
  /-- `return *new(T), fmt.Errorf("field ... cannot be set")` at layer
  index `i`, after the slot writes `slots` already performed. -/
  | err (i : Nat) (slots : List (Nat × Target))
  /-- run-time panic: `layers[entryLayer]` with `entryLayer == -1`. -/
  | outOfRange
  /-- fuel exhaustion marker of the embedding (proved unreachable). -/
  | outOfFuel
  /-- run-time panic of the legacy builder's `reflect` calls on a layer
  that is not a non-nil pointer (`Elem`/`FieldByName` on a zero Value). -/
  | reflectInvalid
deriving DecidableEq, Repr

/-- The inner `for j := i+1; ...` scan, in list form: first index `≥ j`
(absolute position) whose layer passes `getLayerValue`; scans the suffix. -/
def findNextAux : List Layer → Nat → Option Nat
  | [], _ => none
  | L :: rest, j => if L.usable then some j else findNextAux rest (j + 1)

/-- `findNext layers j` = smallest index `k ≥ j` with `layers[k]` usable. -/
def findNext (layers : List Layer) (j : Nat) : Option Nat :=
  findNextAux (layers.drop j) j

/-- All usable indices `≥ j` of the suffix, in increasing order. -/
def usFromAux : List Layer → Nat → List Nat
  | [], _ => []
  | L :: rest, j =>
      if L.usable then j :: usFromAux rest (j + 1) else usFromAux rest (j + 1)

/-- The usable indices of `layers` that are `≥ i`, in increasing order. -/
def usFrom (layers : List Layer) (i : Nat) : List Nat :=
  usFromAux (layers.drop i) i

/-- All usable indices of `layers`, in increasing order. -/
def usIdx (layers : List Layer) : List Nat :=
  usFrom layers 0

/-- `return layers[entryLayer]` at the natural end of the loop: with
`entryLayer` still `-1` (`none`) this is the index-out-of-range panic. -/
def finish : Option Nat → List (Nat × Target) → BuildResult
  | some e, slots => BuildResult.ok e slots
  | none, _ => BuildResult.outOfRange

/-- The outer loop of `Layered` (layers_test.go), one constructor-to-line:
`i` the loop index, `entry` the `entryLayer` variable (`none` for `-1`),
`slots` the delegate-slot writes performed so far, `fuel` the structural
bound (never exhausted when called with enough, see `go_props`).
Returns the result together with the list of indices the loop head tested.

For `i < layers.length` the body is: skip an unusable layer (`continue`);
record `entryLayer` on first usable layer; fail if the slot is unsettable;
on the last index write `base` and break; otherwise scan forward with
`findNext` — if a next usable layer `j` exists, write it and continue from
`j` (the Go code sets `i = j - 1` and lets `i++` run), else write `base`
and break. -/
def go (layers : List Layer) : Nat → Nat → Option Nat → List (Nat × Target) →
    BuildResult × List Nat
  | fuel, i, entry, slots =>
    if h : i < layers.length then
      match fuel with
      | 0 => (BuildResult.outOfFuel, [])
      | fuel + 1 =>
        let L := layers.get ⟨i, h⟩
        if L.usable then
          let e := entry.getD i
          if L.settable then
            if i = layers.length - 1 then
              (BuildResult.ok e (slots ++ [(i, Target.base)]), [i])
            else
              match findNext layers (i + 1) with
              | some j =>
                  let r := go layers fuel j (some e) (slots ++ [(i, Target.layer j)])
                  (r.1, i :: r.2)
              | none =>
                  (BuildResult.ok e (slots ++ [(i, Target.base)]), [i])
          else
            (BuildResult.err i slots, [i])
        else
          let r := go layers fuel (i + 1) entry slots
          (r.1, i :: r.2)
    else
      (finish entry slots, [])

/-- `Layered` of layers_test.go (the current builder), with the tested
loop indices alongside.  Fuel `layers.length` suffices because the loop
index strictly increases (proved in `go_props`). -/
def LayeredRun (layers : List Layer) : BuildResult × List Nat :=
  if layers = [] then (BuildResult.retBase, [])
  else go layers layers.length 0 none []

/-- The result of `Layered(base, layers...)`. -/
def Layered (layers : List Layer) : BuildResult :=
  (LayeredRun layers).1

/-- The indices tested by the outer loop of `Layered`, in order. -/
def LayeredVisits (layers : List Layer) : List Nat :=
  (LayeredRun layers).2

/-- `If` of layers_test.go: the layer if `cond` holds, else the zero value
`*new(T)` (modelled by `default`). -/
def If {α : Type _} [Inhabited α] (cond : Bool) (layer : α) : α :=
  if cond then layer else default

/-- `IfCallback` of layers_test.go: invoke the factory only when `cond`
holds, else the zero value `*new(T)`. -/
def IfCallback {α : Type _} [Inhabited α] (cond : Bool) (layer : Unit → α) : α :=
  if cond then layer () else default

/-- The legacy `Layered` loop of layers.go, over the suffix of the layer
list starting at absolute index `i` (with `len` the total length): for
each layer, `reflect.ValueOf(layers[i]).Elem().FieldByName(name)` — on a
layer that is not a non-nil pointer those `reflect` calls panic (`none`
here); if the field is valid and settable it is written (`base` at the
last index, `layers[i+1]` otherwise), and silently skipped if not. -/
def legacyAux (len : Nat) : List Layer → Nat → Option (List (Nat × Target))
  | [], _ => some []
  | L :: rest, i =>
      if L.usable then
        if L.settable then
          (legacyAux len rest (i + 1)).map
            (fun ws => (if i = len - 1 then (i, Target.base) else (i, Target.layer (i + 1))) :: ws)
        else legacyAux len rest (i + 1)
      else none

/-- The legacy `Layered` of layers.go: empty input returns the base;
otherwise every layer is processed in order and `layers[0]` is returned
with a nil error (the legacy builder has no error path; a non-pointer or
nil layer makes `reflect` panic). -/
def LayeredLegacy (layers : List Layer) : BuildResult :=
  if layers = [] then BuildResult.retBase
  else
    match legacyAux layers.length layers 0 with
    | some ws => BuildResult.ok 0 ws
    | none => BuildResult.reflectInvalid

/-- Look up the (first) delegate-slot write recorded for layer index `i`. -/
def slotOf (slots : List (Nat × Target)) (i : Nat) : Option Target :=
  (slots.find? (fun p => p.1 = i)).map (·.2)

/-- Follow delegate slots `k` times from `t`.  Stepping from the base is
impossible (the base has no delegate slot). -/
def walk (slots : List (Nat × Target)) : Target → Nat → Option Target
  | t, 0 => some t
  | Target.base, _ + 1 => none
  | Target.layer i, k + 1 =>
      match slotOf slots i with
      | some t => walk slots t k
      | none => none

/-- The slot writes the builder performs on the usable-index list `us`
when every slot is settable: each index points to the next one in `us`,
the last points to the base. -/
def wireList : List Nat → List (Nat × Target)
  | [] => []
  | [a] => [(a, Target.base)]
  | a :: b :: rest => (a, Target.layer b) :: wireList (b :: rest)

/-- The slot writes performed along a list of usable indices before the
builder aborts: each index points to the next one, the last gets no write
(the abort happens there, before any write). -/
def wirePartial : List Nat → List (Nat × Target)
  | a :: b :: rest => (a, Target.layer b) :: wirePartial (b :: rest)
  | _ => []

/-- `settable` of the layer at index `u` (false out of range). -/
def settableAt (layers : List Layer) (u : Nat) : Bool :=
  match layers.get? u with
  | some L => L.settable
  | none => false

/-- The chain of `Layer` values visited by following delegate slots from
`t`, the base excluded (it terminates the chain). -/
def chainObjs (layers : List Layer) (slots : List (Nat × Target)) :
    Nat → Target → Option (List Layer)
  | _, Target.base => some []
  | 0, Target.layer _ => none
  | n + 1, Target.layer i =>
      match layers.get? i, slotOf slots i with
      | some L, some t => (chainObjs layers slots n t).map (L :: ·)
      | _, _ => none

/-! ## The `Words` example of the test fixtures

`LayerA` (the base) returns `["Artichoke"]`; `LayerB`, `LayerC`, `LayerD`
delegate first and append `"Basil"`, `"Cilantro"`, `"Dill"`; `LayerE` has
no `Words` method of its own, so the call is promoted to its embedded
`Service` — the identity wrapper. -/

/-- A fully wired `Service` value of the `Words` example. -/
inductive Svc where
  | baseA
  | wrapB (next : Svc)
  | wrapC (next : Svc)
  | wrapD (next : Svc)
  | wrapE (next : Svc)
deriving DecidableEq, Repr

/-- `Words()` of each fixture type. -/
def words : Svc → List String
  | Svc.baseA => ["Artichoke"]
  | Svc.wrapB s => words s ++ ["Basil"]
  | Svc.wrapC s => words s ++ ["Cilantro"]
  | Svc.wrapD s => words s ++ ["Dill"]
  | Svc.wrapE s => words s

/-- Which fixture type sits at a given position of the layer list. -/
inductive ExTag where
  | tB
  | tC
  | tD
  | tE
deriving DecidableEq, Repr

/-- Wrap a chain tail in the fixture type named by the tag. -/
def applyTag : ExTag → Svc → Svc
  | ExTag.tB, s => Svc.wrapB s
  | ExTag.tC, s => Svc.wrapC s
  | ExTag.tD, s => Svc.wrapD s
  | ExTag.tE, s => Svc.wrapE s

/-- Materialise the wired composite as a `Svc` value: follow the recorded
slot writes from `t`, wrapping per the position's tag; the base is
`LayerA`. -/
def buildSvc (tags : List ExTag) (slots : List (Nat × Target)) :
    Nat → Target → Option Svc
  | _, Target.base => some Svc.baseA
  | 0, Target.layer _ => none
  | n + 1, Target.layer i =>
      match tags.get? i, slotOf slots i with
      | some tg, some t => (buildSvc tags slots n t).map (applyTag tg)
      | _, _ => none

/-- Run `Layered` on `layers` and call `Words()` on the composite, with
`tags` naming the fixture type at each position and `n` a chain-length
bound. -/
def runWords (layers : List Layer) (tags : List ExTag) (n : Nat) :
    Option (List String) :=
  match Layered layers with
  | BuildResult.retBase => some (words Svc.baseA)
  | BuildResult.ok e slots => (buildSvc tags slots n (Target.layer e)).map words
  | _ => none

/-- `&LayerB{}` of the fixtures: a non-nil pointer with a settable
embedded `Service` field. -/
def exLayerB : Layer := ⟨true, true, 1⟩

/-- `&LayerC{}` of the fixtures. -/
def exLayerC : Layer := ⟨true, true, 2⟩

/-- `&LayerD{}` of the fixtures. -/
def exLayerD : Layer := ⟨true, true, 3⟩

/-- An empty placeholder as produced by `If(false, ...)`: the zero value
of the interface type, rejected by `getLayerValue`. -/
def exEmpty : Layer := ⟨false, false, 0⟩

/-! ## Facts about the usable-index scan -/

/-- `usable` of the layer at index `u` (false out of range). -/
def usableAt (layers : List Layer) (u : Nat) : Bool :=
  match layers.get? u with
  | some L => L.usable
  | none => false

lemma usFrom_of_ge (layers : List Layer) (i : Nat) (h : layers.length ≤ i) :
    usFrom layers i = [] := by
  unfold usFrom
  rw [List.drop_eq_nil_of_le h]
  rfl

lemma usFrom_of_lt (layers : List Layer) (i : Nat) (h : i < layers.length) :
    usFrom layers i =
      if (layers.get ⟨i, h⟩).usable then i :: usFrom layers (i + 1)
      else usFrom layers (i + 1) := by
  unfold usFrom
  rw [List.drop_eq_getElem_cons h]
  rfl

lemma findNextAux_eq_head? : ∀ (l : List Layer) (j : Nat),
    findNextAux l j = (usFromAux l j).head? := by
  intro l
  induction l with
  | nil => intro j; rfl
  | cons L rest ih =>
      intro j
      by_cases hu : L.usable <;> simp [findNextAux, usFromAux, hu, ih]

lemma findNext_eq_head? (layers : List Layer) (j : Nat) :
    findNext layers j = (usFrom layers j).head? := by
  unfold findNext usFrom
  exact findNextAux_eq_head? _ _

lemma mem_usFromAux_le : ∀ (l : List Layer) (j u : Nat),
    u ∈ usFromAux l j → j ≤ u := by
  intro l
  induction l with
  | nil => intro j u h; simp [usFromAux] at h
  | cons L rest ih =>
      intro j u h
      by_cases hu : L.usable
      · simp [usFromAux, hu] at h
        rcases h with h | h
        · omega
        · have := ih _ _ h; omega
      · simp [usFromAux, hu] at h
        have := ih _ _ h; omega

lemma usFromAux_sorted : ∀ (l : List Layer) (j : Nat),
    (usFromAux l j).Pairwise (· < ·) := by
  intro l
  induction l with
  | nil => intro j; simp [usFromAux]
  | cons L rest ih =>
      intro j
      by_cases hu : L.usable
      · simp only [usFromAux, hu, if_true, List.pairwise_cons]
        refine ⟨fun u hu' => ?_, ih _⟩
        have := mem_usFromAux_le _ _ _ hu'
        omega
      · simp only [usFromAux, hu, if_false]
        exact ih _

lemma usFrom_sorted (layers : List Layer) (i : Nat) :
    (usFrom layers i).Pairwise (· < ·) :=
  usFromAux_sorted _ _

lemma mem_usFrom (layers : List Layer) : ∀ i u : Nat,
    u ∈ usFrom layers i ↔
      i ≤ u ∧ ∃ h : u < layers.length, (layers.get ⟨u, h⟩).usable := by
  intro i
  generalize hk : layers.length - i = k
  induction k generalizing i with
  | zero =>
      intro u
      have hge : layers.length ≤ i := by omega
      rw [usFrom_of_ge layers i hge]
      simp only [List.not_mem_nil, false_iff]
      rintro ⟨hiu, hu, -⟩
      omega
  | succ k ih =>
      intro u
      have hi : i < layers.length := by omega
      have hk' : layers.length - (i + 1) = k := by omega
      rw [usFrom_of_lt layers i hi]
      by_cases hu : (layers.get ⟨i, hi⟩).usable
      · rw [if_pos hu, List.mem_cons, ih (i + 1) hk' u]
        constructor
        · rintro (rfl | ⟨h1, h2⟩)
          · exact ⟨le_refl _, hi, hu⟩
          · exact ⟨by omega, h2⟩
        · rintro ⟨h1, hlt, husable⟩
          by_cases he : u = i
          · exact Or.inl he
          · exact Or.inr ⟨by omega, hlt, husable⟩
      · rw [if_neg hu, ih (i + 1) hk' u]
        constructor
        · rintro ⟨h1, h2⟩
          exact ⟨by omega, h2⟩
        · rintro ⟨h1, hlt, husable⟩
          by_cases he : u = i
          · subst he; exact absurd husable hu
          · exact ⟨by omega, hlt, husable⟩

lemma usFromAux_cons_eq : ∀ (l : List Layer) (m j : Nat) (tl : List Nat),
    usFromAux l m = j :: tl →
    m ≤ j ∧ tl = usFromAux (l.drop (j + 1 - m)) (j + 1) := by
  intro l
  induction l with
  | nil => intro m j tl h; simp [usFromAux] at h
  | cons L rest ih =>
      intro m j tl h
      by_cases hu : L.usable
      · simp only [usFromAux, hu, if_true, List.cons.injEq] at h
        obtain ⟨rfl, rfl⟩ := h
        have : m + 1 - m = 1 := by omega
        simp [this]
      · simp only [usFromAux, hu, if_false] at h
        obtain ⟨h1, h2⟩ := ih _ _ _ h
        refine ⟨by omega, ?_⟩
        have : j + 1 - m = (j + 1 - (m + 1)) + 1 := by omega
        rw [this, List.drop_succ_cons]
        exact h2

lemma usFrom_cons_eq (layers : List Layer) (m j : Nat) (tl : List Nat)
    (h : usFrom layers m = j :: tl) :
    m ≤ j ∧ tl = usFrom layers (j + 1) ∧ usFrom layers j = j :: tl := by
  have hmem : j ∈ usFrom layers m := by rw [h]; exact List.mem_cons_self _ _
  rw [mem_usFrom] at hmem
  obtain ⟨hmj, hjlt, hju⟩ := hmem
  obtain ⟨h1, h2⟩ := usFromAux_cons_eq _ _ _ _ h
  rw [List.drop_drop] at h2
  have harith : m + (j + 1 - m) = j + 1 := by omega
  rw [harith] at h2
  have htl : tl = usFrom layers (j + 1) := h2
  refine ⟨hmj, htl, ?_⟩
  rw [usFrom_of_lt layers j hjlt, if_pos hju, htl]

lemma findNext_some (layers : List Layer) (m j : Nat)
    (h : findNext layers m = some j) :
    m ≤ j ∧ j < layers.length ∧
      usFrom layers m = j :: usFrom layers (j + 1) ∧
      usFrom layers j = j :: usFrom layers (j + 1) := by
  rw [findNext_eq_head?] at h
  cases hl : usFrom layers m with
  | nil => rw [hl] at h; simp at h
  | cons u tl =>
      rw [hl] at h
      simp only [List.head?_cons, Option.some.injEq] at h
      obtain rfl := h
      obtain ⟨h1, h2, h3⟩ := usFrom_cons_eq layers m u tl hl
      have hmem : u ∈ usFrom layers m := by rw [hl]; exact List.mem_cons_self _ _
      rw [mem_usFrom] at hmem
      exact ⟨h1, hmem.2.1, congrArg (List.cons u) h2,
        h3.trans (congrArg (List.cons u) h2)⟩

lemma findNext_none (layers : List Layer) (m : Nat)
    (h : findNext layers m = none) : usFrom layers m = [] := by
  rw [findNext_eq_head?] at h
  exact List.head?_eq_none_iff.mp h

/-! ## The outer loop: termination, single pass, and its two outcomes -/

lemma settableAt_eq (layers : List Layer) (i : Nat) (hi : i < layers.length) :
    settableAt layers i = (layers.get ⟨i, hi⟩).settable := by
  unfold settableAt
  rw [List.get?_eq_get hi]

lemma find?_cons_eval (p : Nat → Bool) (a : Nat) (l : List Nat) :
    (a :: l).find? p = if p a then some a else l.find? p := by
  by_cases h : p a
  · rw [List.find?_cons_of_pos _ h, if_pos h]
  · rw [List.find?_cons_of_neg _ h, if_neg h]

lemma takeWhile_cons_eval (p : Nat → Bool) (a : Nat) (l : List Nat) :
    (a :: l).takeWhile p = if p a then a :: l.takeWhile p else [] := by
  by_cases h : p a
  · rw [List.takeWhile_cons_of_pos h, if_pos h]
  · rw [List.takeWhile_cons_of_neg h, if_neg h]

/-- Fuel `layers.length - i` is enough: the result is never `outOfFuel`,
and the outer loop tests a strictly increasing list of in-range indices —
a single pass that never revisits a position. -/
lemma go_props (layers : List Layer) : ∀ (fuel i : Nat) (entry : Option Nat)
    (slots : List (Nat × Target)), layers.length ≤ i + fuel →
    (go layers fuel i entry slots).1 ≠ BuildResult.outOfFuel ∧
    (∀ v ∈ (go layers fuel i entry slots).2, i ≤ v ∧ v < layers.length) ∧
    (go layers fuel i entry slots).2.Chain' (· < ·) := by
  intro fuel
  induction fuel with
  | zero =>
      intro i entry slots hle
      have hni : ¬ i < layers.length := by omega
      rw [go, dif_neg hni]
      refine ⟨?_, by simp, by simp⟩
      cases entry <;> simp [finish]
  | succ fuel ih =>
      intro i entry slots hle
      by_cases hi : i < layers.length
      · rw [go, dif_pos hi]
        dsimp only
        by_cases hu : (layers.get ⟨i, hi⟩).usable
        · rw [if_pos hu]
          by_cases hs : (layers.get ⟨i, hi⟩).settable
          · rw [if_pos hs]
            by_cases hlast : i = layers.length - 1
            · rw [if_pos hlast]
              refine ⟨by simp, ?_, by simp⟩
              intro v hv
              simp only [List.mem_singleton] at hv
              omega
            · rw [if_neg hlast]
              cases hfn : findNext layers (i + 1) with
              | some j =>
                  obtain ⟨hij, hjlt, -, -⟩ := findNext_some layers (i + 1) j hfn
                  have hle' : layers.length ≤ j + fuel := by omega
                  obtain ⟨h1, h2, h3⟩ := ih j (some (entry.getD i))
                    (slots ++ [(i, Target.layer j)]) hle'
                  refine ⟨h1, ?_, ?_⟩
                  · intro v hv
                    rcases List.mem_cons.mp hv with rfl | hv
                    · exact ⟨le_refl _, hi⟩
                    · have := h2 v hv
                      omega
                  · rw [List.chain'_cons']
                    refine ⟨?_, h3⟩
                    intro b hb
                    have hbmem : b ∈ (go layers fuel j (some (entry.getD i))
                        (slots ++ [(i, Target.layer j)])).2 := List.mem_of_mem_head? hb
                    have := h2 b hbmem
                    omega
              | none =>
                  refine ⟨by simp, ?_, by simp⟩
                  intro v hv
                  simp only [List.mem_singleton] at hv
                  omega
          · rw [if_neg hs]
            refine ⟨by simp, ?_, by simp⟩
            intro v hv
            simp only [List.mem_singleton] at hv
            omega
        · rw [if_neg hu]
          have hle' : layers.length ≤ (i + 1) + fuel := by omega
          obtain ⟨h1, h2, h3⟩ := ih (i + 1) entry slots hle'
          refine ⟨h1, ?_, ?_⟩
          · intro v hv
            rcases List.mem_cons.mp hv with rfl | hv
            · exact ⟨le_refl _, hi⟩
            · have := h2 v hv
              omega
          · rw [List.chain'_cons']
            refine ⟨?_, h3⟩
            intro b hb
            have hbmem : b ∈ (go layers fuel (i + 1) entry slots).2 :=
              List.mem_of_mem_head? hb
            have := h2 b hbmem
            omega
      · rw [go, dif_neg hi]
        refine ⟨?_, by simp, by simp⟩
        cases entry <;> simp [finish]

/-- When every usable layer's slot is settable the loop succeeds: starting
at `i` it performs exactly the writes `wireList (usFrom layers i)` and
returns the first usable index (or falls through to `finish`). -/
lemma go_run_eq (layers : List Layer)
    (hset : ∀ L ∈ layers, L.usable → L.settable) :
    ∀ (fuel i : Nat) (entry : Option Nat) (slots : List (Nat × Target)),
    layers.length ≤ i + fuel →
    (go layers fuel i entry slots).1 =
      (match usFrom layers i with
       | [] => finish entry slots
       | u :: us => BuildResult.ok (entry.getD u) (slots ++ wireList (u :: us))) := by
  intro fuel
  induction fuel with
  | zero =>
      intro i entry slots hle
      have hni : ¬ i < layers.length := by omega
      rw [go, dif_neg hni, usFrom_of_ge layers i (by omega)]
  | succ fuel ih =>
      intro i entry slots hle
      by_cases hi : i < layers.length
      · rw [go, dif_pos hi]
        dsimp only
        by_cases hu : (layers.get ⟨i, hi⟩).usable
        · have hs : (layers.get ⟨i, hi⟩).settable :=
            hset _ (layers.get_mem i hi) hu
          rw [if_pos hu, if_pos hs, usFrom_of_lt layers i hi, if_pos hu]
          by_cases hlast : i = layers.length - 1
          · rw [if_pos hlast]
            have h0 : usFrom layers (i + 1) = [] := by
              apply usFrom_of_ge
              omega
            rw [h0]
            rfl
          · rw [if_neg hlast]
            cases hfn : findNext layers (i + 1) with
            | some j =>
                obtain ⟨hij, hjlt, hsucc, hself⟩ := findNext_some layers (i + 1) j hfn
                have hle' : layers.length ≤ j + fuel := by omega
                rw [ih j (some (entry.getD i)) (slots ++ [(i, Target.layer j)]) hle']
                rw [hself, hsucc]
                simp [wireList, List.append_assoc]
            | none =>
                have h0 : usFrom layers (i + 1) = [] := findNext_none layers (i + 1) hfn
                rw [h0]
                rfl
        · rw [if_neg hu, usFrom_of_lt layers i hi, if_neg hu]
          exact ih (i + 1) entry slots (by omega)
      · rw [go, dif_neg hi, usFrom_of_ge layers i (by omega)]

lemma findBad_cons (layers : List Layer) (a : Nat) (l : List Nat) :
    (a :: l).find? (fun u => !settableAt layers u) =
      if settableAt layers a then l.find? (fun u => !settableAt layers u)
      else some a := by
  by_cases h : settableAt layers a
  · rw [if_pos h]
    apply List.find?_cons_of_neg
    simp [h]
  · rw [if_neg h]
    apply List.find?_cons_of_pos
    simp only [Bool.not_eq_true] at h
    simp [h]

lemma takeGood_cons (layers : List Layer) (a : Nat) (l : List Nat) :
    (a :: l).takeWhile (fun u => settableAt layers u) =
      if settableAt layers a then a :: l.takeWhile (fun u => settableAt layers u)
      else [] := by
  by_cases h : settableAt layers a
  · rw [if_pos h]
    exact List.takeWhile_cons_of_pos h
  · rw [if_neg h]
    exact List.takeWhile_cons_of_neg h

/-- When some usable layer at index `≥ i` has an unsettable slot, the loop
aborts at the first such index `k`, having wired each earlier usable index
to the next usable index (the last of them to `k` itself), and the writes
already performed are kept. -/
lemma go_err_eq (layers : List Layer) :
    ∀ (fuel i : Nat) (entry : Option Nat) (slots : List (Nat × Target)) (k : Nat),
    layers.length ≤ i + fuel →
    (usFrom layers i).find? (fun u => !settableAt layers u) = some k →
    (go layers fuel i entry slots).1 =
      BuildResult.err k
        (slots ++ wirePartial (((usFrom layers i).takeWhile
          (fun u => settableAt layers u)) ++ [k])) := by
  intro fuel
  induction fuel with
  | zero =>
      intro i entry slots k hle hfind
      rw [usFrom_of_ge layers i (by omega)] at hfind
      simp at hfind
  | succ fuel ih =>
      intro i entry slots k hle hfind
      by_cases hi : i < layers.length
      · rw [go, dif_pos hi]
        dsimp only
        by_cases hu : (layers.get ⟨i, hi⟩).usable
        · rw [usFrom_of_lt layers i hi, if_pos hu] at hfind
          rw [if_pos hu]
          rw [usFrom_of_lt layers i hi, if_pos hu]
          by_cases hs : (layers.get ⟨i, hi⟩).settable
          · have hsA : settableAt layers i = true := by
              rw [settableAt_eq layers i hi]
              exact hs
            rw [if_pos hs]
            rw [findBad_cons, if_pos hsA] at hfind
            rw [takeGood_cons, if_pos hsA]
            by_cases hlast : i = layers.length - 1
            · exfalso
              rw [usFrom_of_ge layers (i + 1) (by omega)] at hfind
              simp at hfind
            · rw [if_neg hlast]
              cases hfn : findNext layers (i + 1) with
              | some j =>
                  obtain ⟨hij, hjlt, hsucc, hself⟩ := findNext_some layers (i + 1) j hfn
                  have husj : usFrom layers j = usFrom layers (i + 1) :=
                    hself.trans hsucc.symm
                  have hle' : layers.length ≤ j + fuel := by omega
                  rw [ih j (some (entry.getD i)) (slots ++ [(i, Target.layer j)]) k hle'
                    (by rw [husj]; exact hfind)]
                  rw [husj]
                  rw [hsucc] at hfind ⊢
                  rw [takeGood_cons]
                  by_cases hgj : settableAt layers j
                  · rw [if_pos hgj]
                    simp [wirePartial, List.append_assoc]
                  · rw [if_neg hgj]
                    have hkj : k = j := by
                      rw [findBad_cons, if_neg hgj] at hfind
                      exact (Option.some.inj hfind).symm
                    subst hkj
                    simp [wirePartial, List.append_assoc]
              | none =>
                  exfalso
                  rw [findNext_none layers (i + 1) hfn] at hfind
                  simp at hfind
          · have hsA : ¬ settableAt layers i = true := by
              rw [settableAt_eq layers i hi]
              exact hs
            rw [if_neg hs]
            rw [findBad_cons, if_neg hsA] at hfind
            obtain rfl := Option.some.inj hfind
            rw [takeGood_cons, if_neg hsA]
            simp [wirePartial]
        · rw [usFrom_of_lt layers i hi, if_neg hu] at hfind
          rw [if_neg hu]
          rw [usFrom_of_lt layers i hi, if_neg hu]
          exact ih (i + 1) entry slots k (by omega) hfind
      · rw [usFrom_of_ge layers i (by omega)] at hfind
        simp at hfind

/-! ## Following the recorded slot writes -/

lemma slotOf_cons (a x : Nat) (v : Target) (W : List (Nat × Target)) :
    slotOf ((a, v) :: W) x = if x = a then some v else slotOf W x := by
  by_cases h : x = a
  · subst h
    rw [if_pos rfl]
    simp [slotOf, List.find?]
  · rw [if_neg h]
    simp only [slotOf, List.find?]
    have : (decide ((a, v).1 = x)) = false := by
      simp
      omega
    rw [this]

lemma slotOf_mem (W : List (Nat × Target)) (x : Nat) (t : Target)
    (h : slotOf W x = some t) : (x, t) ∈ W := by
  unfold slotOf at h
  cases hf : W.find? (fun p => p.1 = x) with
  | none => rw [hf] at h; simp at h
  | some p =>
      rw [hf] at h
      simp only [Option.map_some', Option.some.injEq] at h
      have hmem := List.mem_of_find?_eq_some hf
      have hp := List.find?_some hf
      simp only [decide_eq_true_eq] at hp
      obtain ⟨p1, p2⟩ := p
      simp only at hp h
      subst hp
      subst h
      exact hmem

lemma walk_layer_step (slots : List (Nat × Target)) (i k : Nat) (t : Target)
    (h : slotOf slots i = some t) :
    walk slots (Target.layer i) (k + 1) = walk slots t k := by
  have h0 : walk slots (Target.layer i) (k + 1) =
      (match slotOf slots i with
       | some t => walk slots t k
       | none => none) := rfl
  rw [h0, h]

lemma walk_layer_none (slots : List (Nat × Target)) (i k : Nat)
    (h : slotOf slots i = none) :
    walk slots (Target.layer i) (k + 1) = none := by
  have h0 : walk slots (Target.layer i) (k + 1) =
      (match slotOf slots i with
       | some t => walk slots t k
       | none => none) := rfl
  rw [h0, h]

lemma walk_zero (slots : List (Nat × Target)) (t : Target) :
    walk slots t 0 = some t := by
  cases t <;> rfl

/-- Consing a write for an index the walk can never reach leaves the walk
unchanged. -/
lemma walk_cons_ne (a : Nat) (v : Target) (W : List (Nat × Target))
    (hW : ∀ x y, (x, Target.layer y) ∈ W → y ≠ a) :
    ∀ (k : Nat) (t : Target), (∀ y, t = Target.layer y → y ≠ a) →
    walk ((a, v) :: W) t k = walk W t k := by
  intro k
  induction k with
  | zero => intro t ht; rw [walk_zero, walk_zero]
  | succ k ih =>
      intro t ht
      cases t with
      | base => rfl
      | layer x =>
          have hxa : x ≠ a := ht x rfl
          have hslot : slotOf ((a, v) :: W) x = slotOf W x := by
            rw [slotOf_cons, if_neg hxa]
          cases hs : slotOf W x with
          | none =>
              rw [walk_layer_none _ _ _ (hslot.trans hs), walk_layer_none _ _ _ hs]
          | some u =>
              rw [walk_layer_step _ _ _ _ (hslot.trans hs),
                walk_layer_step _ _ _ _ hs]
              apply ih
              intro y hy
              subst hy
              exact hW x y (slotOf_mem W x _ hs)

lemma wireList_mem (us : List Nat) : ∀ (x : Nat) (t : Target),
    (x, t) ∈ wireList us →
    x ∈ us ∧ (t = Target.base ∨ ∃ y ∈ us, t = Target.layer y) := by
  induction us with
  | nil => intro x t h; simp [wireList] at h
  | cons a us ih =>
      cases us with
      | nil =>
          intro x t h
          simp only [wireList, List.mem_singleton] at h
          obtain ⟨rfl, rfl⟩ := Prod.mk.injEq .. ▸ h
          exact ⟨List.mem_singleton_self _, Or.inl rfl⟩
      | cons b rest =>
          intro x t h
          have hW : wireList (a :: b :: rest) =
              (a, Target.layer b) :: wireList (b :: rest) := rfl
          rw [hW] at h
          rcases List.mem_cons.mp h with heq | hmem
          · obtain ⟨rfl, rfl⟩ := Prod.mk.injEq .. ▸ heq
            refine ⟨List.mem_cons_self _ _, Or.inr ⟨b, ?_, rfl⟩⟩
            simp
          · obtain ⟨hx, ht⟩ := ih x t hmem
            refine ⟨List.mem_cons_of_mem _ hx, ?_⟩
            rcases ht with rfl | ⟨y, hy, rfl⟩
            · exact Or.inl rfl
            · exact Or.inr ⟨y, List.mem_cons_of_mem _ hy, rfl⟩

/-- Walking the successful wiring of the index list `us` from its head
visits `us` in order and reaches the base at step `us.length`. -/
lemma walk_wireList (us : List Nat) (hpw : us.Pairwise (· < ·)) (hne : us ≠ []) :
    (∀ (k : Nat) (hk : k < us.length),
      walk (wireList us) (Target.layer (us.head hne)) k =
        some (Target.layer (us.get ⟨k, hk⟩))) ∧
    walk (wireList us) (Target.layer (us.head hne)) us.length =
      some Target.base := by
  induction us with
  | nil => exact absurd rfl hne
  | cons a us ih =>
      cases us with
      | nil =>
          constructor
          · intro k hk
            have hk0 : k = 0 := by
              simp at hk
              omega
            subst hk0
            rfl
          · show walk [(a, Target.base)] (Target.layer a) 1 = some Target.base
            rw [walk_layer_step _ _ _ Target.base (by rw [slotOf_cons, if_pos rfl])]
            rfl
      | cons b rest =>
          have hpw' : (b :: rest).Pairwise (· < ·) := (List.pairwise_cons.mp hpw).2
          have halt : ∀ y ∈ b :: rest, a < y := (List.pairwise_cons.mp hpw).1
          obtain ⟨ih1, ih2⟩ := ih hpw' (by simp)
          simp only [List.head_cons] at ih1 ih2
          have hW : wireList (a :: b :: rest) =
              (a, Target.layer b) :: wireList (b :: rest) := rfl
          have hano : ∀ x y, (x, Target.layer y) ∈ wireList (b :: rest) → y ≠ a := by
            intro x y hmem
            obtain ⟨-, ht⟩ := wireList_mem (b :: rest) x (Target.layer y) hmem
            rcases ht with h | ⟨z, hz, hzeq⟩
            · exact absurd h (by simp)
            · obtain rfl : y = z := by
                simpa using hzeq
              exact Nat.ne_of_gt (halt _ hz)
          have hskip : ∀ (k : Nat) (t : Target), (∀ y, t = Target.layer y → y ≠ a) →
              walk ((a, Target.layer b) :: wireList (b :: rest)) t k =
                walk (wireList (b :: rest)) t k :=
            walk_cons_ne a (Target.layer b) (wireList (b :: rest)) hano
          have hbna : ∀ y, Target.layer b = Target.layer y → y ≠ a := by
            intro y hy
            obtain rfl : b = y := by simpa using hy
            exact Nat.ne_of_gt (halt _ (List.mem_cons_self _ _))
          constructor
          · intro k hk
            cases k with
            | zero => rfl
            | succ k =>
                have hstep : slotOf (wireList (a :: b :: rest)) a =
                    some (Target.layer b) := by
                  rw [hW, slotOf_cons, if_pos rfl]
                show walk (wireList (a :: b :: rest)) (Target.layer a) (k + 1) =
                  some (Target.layer ((a :: b :: rest).get ⟨k + 1, hk⟩))
                rw [walk_layer_step _ _ _ _ hstep, hW,
                  hskip k (Target.layer b) hbna]
                have hk' : k < (b :: rest).length := by
                  simp at hk ⊢
                  omega
                rw [ih1 k hk']
                rfl
          · have hstep : slotOf (wireList (a :: b :: rest)) a =
                some (Target.layer b) := by
              rw [hW, slotOf_cons, if_pos rfl]
            show walk (wireList (a :: b :: rest)) (Target.layer a)
              ((b :: rest).length + 1) = some Target.base
            rw [walk_layer_step _ _ _ _ hstep, hW,
              hskip (b :: rest).length (Target.layer b) hbna]
            exact ih2

/-- In the partial wiring of `q`, each index of `q` except the last points
to the next one. -/
lemma wirePartial_slot (q : List Nat) : q.Pairwise (· < ·) →
    ∀ (m : Nat) (hm : m + 1 < q.length),
      slotOf (wirePartial q) (q.get ⟨m, by omega⟩) =
        some (Target.layer (q.get ⟨m + 1, hm⟩)) := by
  induction q with
  | nil => intro _ m hm; simp at hm
  | cons a q ih =>
      cases q with
      | nil => intro _ m hm; simp at hm
      | cons b rest =>
          intro hpw m hm
          have hpw' : (b :: rest).Pairwise (· < ·) := (List.pairwise_cons.mp hpw).2
          have halt : ∀ y ∈ b :: rest, a < y := (List.pairwise_cons.mp hpw).1
          have hW : wirePartial (a :: b :: rest) =
              (a, Target.layer b) :: wirePartial (b :: rest) := rfl
          cases m with
          | zero =>
              show slotOf (wirePartial (a :: b :: rest)) a =
                some (Target.layer ((a :: b :: rest).get ⟨0 + 1, hm⟩))
              rw [hW, slotOf_cons, if_pos rfl]
              rfl
          | succ m =>
              rw [hW, slotOf_cons]
              have hget : (a :: b :: rest).get ⟨m + 1, by omega⟩ =
                  (b :: rest).get ⟨m, by simp at hm ⊢; omega⟩ := rfl
              have hmem : (a :: b :: rest).get ⟨m + 1, by omega⟩ ∈ b :: rest := by
                rw [hget]
                exact List.get_mem _ _ _
              rw [if_neg (Nat.ne_of_gt (halt _ hmem))]
              have hm' : m + 1 < (b :: rest).length := by
                simp at hm ⊢
                omega
              have := ih hpw' m hm'
              rw [hget, this]
              rfl

/-! ## Top-level characterisations of `Layered` -/

/-- Successful run: with every usable layer settable, `Layered` returns
the first usable layer wired by `wireList` over the usable indices, the
run-time panic when no usable layer exists, and the base on empty input. -/
lemma Layered_run (layers : List Layer) (hne : layers ≠ [])
    (hset : ∀ L ∈ layers, L.usable = true → L.settable = true) :
    Layered layers =
      (match usIdx layers with
       | [] => BuildResult.outOfRange
       | u :: us => BuildResult.ok u (wireList (u :: us))) := by
  unfold Layered LayeredRun
  rw [if_neg hne]
  rw [go_run_eq layers hset layers.length 0 none [] (by omega)]
  have h0 : usFrom layers 0 = usIdx layers := rfl
  rw [h0]
  cases h : usIdx layers with
  | nil => rfl
  | cons u us => simp [finish]

/-- Failing run: with `k` the first usable index whose slot is not
settable, `Layered` aborts with the error at `k`, the usable indices
before `k` already wired. -/
lemma Layered_err (layers : List Layer) (k : Nat)
    (hfind : (usIdx layers).find? (fun u => !settableAt layers u) = some k) :
    Layered layers = BuildResult.err k
      (wirePartial (((usIdx layers).takeWhile
        (fun u => settableAt layers u)) ++ [k])) := by
  have hne : layers ≠ [] := by
    intro h
    subst h
    simp [usIdx, usFrom, usFromAux] at hfind
  unfold Layered LayeredRun
  rw [if_neg hne]
  rw [go_err_eq layers layers.length 0 none [] k (by omega) hfind]
  have h0 : usFrom layers 0 = usIdx layers := rfl
  rw [h0]
  simp

lemma exists_usable_index (layers : List Layer) (P : Layer → Prop)
    (h : ∃ L ∈ layers, P L) :
    ∃ (n : Nat) (hn : n < layers.length), P (layers.get ⟨n, hn⟩) := by
  obtain ⟨L, hL, hP⟩ := h
  obtain ⟨n, hn⟩ := List.mem_iff_get.mp hL
  refine ⟨n.1, n.2, ?_⟩
  have : layers.get ⟨n.1, n.2⟩ = L := hn
  rw [this]
  exact hP

/-- The first index failing `p` is the head of what `dropWhile p` keeps. -/
lemma find?_bad_head_dropWhile (p : Nat → Bool) : ∀ (l : List Nat),
    l.find? (fun u => !p u) = (l.dropWhile p).head? := by
  intro l
  induction l with
  | nil => rfl
  | cons a l ih =>
      by_cases h : p a
      · have h1 : (a :: l).find? (fun u => !p u) = l.find? (fun u => !p u) := by
          apply List.find?_cons_of_neg
          simp [h]
        have h2 : (a :: l).dropWhile p = l.dropWhile p := by
          rw [List.dropWhile_cons_of_pos h]
        rw [h1, h2, ih]
      · have h1 : (a :: l).find? (fun u => !p u) = some a := by
          apply List.find?_cons_of_pos
          simp only [Bool.not_eq_true] at h
          simp [h]
        have h2 : (a :: l).dropWhile p = a :: l := by
          rw [List.dropWhile_cons_of_neg h]
        rw [h1, h2]
        rfl

/-- In the successful wiring of `q`, each index of `q` except the last
points to the next one. -/
lemma wireList_slot (q : List Nat) : q.Pairwise (· < ·) →
    ∀ (m : Nat) (hm : m + 1 < q.length),
      slotOf (wireList q) (q.get ⟨m, by omega⟩) =
        some (Target.layer (q.get ⟨m + 1, hm⟩)) := by
  induction q with
  | nil => intro _ m hm; simp at hm
  | cons a q ih =>
      cases q with
      | nil => intro _ m hm; simp at hm
      | cons b rest =>
          intro hpw m hm
          have hpw' : (b :: rest).Pairwise (· < ·) := (List.pairwise_cons.mp hpw).2
          have halt : ∀ y ∈ b :: rest, a < y := (List.pairwise_cons.mp hpw).1
          have hW : wireList (a :: b :: rest) =
              (a, Target.layer b) :: wireList (b :: rest) := rfl
          cases m with
          | zero =>
              show slotOf (wireList (a :: b :: rest)) a =
                some (Target.layer ((a :: b :: rest).get ⟨0 + 1, hm⟩))
              rw [hW, slotOf_cons, if_pos rfl]
              rfl
          | succ m =>
              rw [hW, slotOf_cons]
              have hget : (a :: b :: rest).get ⟨m + 1, by omega⟩ =
                  (b :: rest).get ⟨m, by simp at hm ⊢; omega⟩ := rfl
              have hmem : (a :: b :: rest).get ⟨m + 1, by omega⟩ ∈ b :: rest := by
                rw [hget]
                exact List.get_mem _ _ _
              rw [if_neg (Nat.ne_of_gt (halt _ hmem))]
              have hm' : m + 1 < (b :: rest).length := by
                simp at hm ⊢
                omega
              have := ih hpw' m hm'
              rw [hget, this]
              rfl

/-- In the successful wiring of `q`, the last index points to the base. -/
lemma wireList_last (q : List Nat) : q.Pairwise (· < ·) → ∀ (hne : q ≠ []),
    slotOf (wireList q) (q.getLast hne) = some Target.base := by
  induction q with
  | nil => intro _ hne; exact absurd rfl hne
  | cons a q ih =>
      cases q with
      | nil =>
          intro _ hne
          show slotOf [(a, Target.base)] a = some Target.base
          rw [slotOf_cons, if_pos rfl]
      | cons b rest =>
          intro hpw hne
          have hpw' : (b :: rest).Pairwise (· < ·) := (List.pairwise_cons.mp hpw).2
          have halt : ∀ y ∈ b :: rest, a < y := (List.pairwise_cons.mp hpw).1
          have hW : wireList (a :: b :: rest) =
              (a, Target.layer b) :: wireList (b :: rest) := rfl
          have hlast : (a :: b :: rest).getLast hne = (b :: rest).getLast (by simp) :=
            List.getLast_cons _
          have hmem : (b :: rest).getLast (by simp) ∈ b :: rest :=
            List.getLast_mem _
          rw [hlast, hW, slotOf_cons, if_neg (Nat.ne_of_gt (halt _ hmem))]
          exact ih hpw' (by simp)

/-! ## The legacy builder -/

lemma usFromAux_all (l : List Layer) : ∀ i : Nat, (∀ L ∈ l, L.usable = true) →
    usFromAux l i = List.range' i l.length := by
  induction l with
  | nil => intro i _; rfl
  | cons L rest ih =>
      intro i h
      have hu : L.usable = true := h L (List.mem_cons_self _ _)
      have hEq : usFromAux (L :: rest) i =
          if L.usable = true then i :: usFromAux rest (i + 1)
          else usFromAux rest (i + 1) := rfl
      rw [hEq, if_pos hu, ih (i + 1) (fun L' hL' => h L' (List.mem_cons_of_mem _ hL'))]
      rw [show (L :: rest).length = rest.length + 1 from rfl, List.range'_succ]

lemma usIdx_all (layers : List Layer) (h : ∀ L ∈ layers, L.usable = true) :
    usIdx layers = List.range' 0 layers.length := by
  have h0 : usIdx layers = usFromAux layers 0 := by
    unfold usIdx usFrom
    rw [List.drop_zero]
  rw [h0, usFromAux_all layers 0 h]

lemma legacyAux_eq (len : Nat) : ∀ (l : List Layer) (i : Nat),
    (∀ L ∈ l, L.usable = true ∧ L.settable = true) → i + l.length = len →
    legacyAux len l i = some (wireList (List.range' i l.length)) := by
  intro l
  induction l with
  | nil => intro i _ _; rfl
  | cons L rest ih =>
      intro i h hlen
      obtain ⟨hu, hs⟩ := h L (List.mem_cons_self _ _)
      have hEq : legacyAux len (L :: rest) i =
          if L.usable = true then
            if L.settable = true then
              (legacyAux len rest (i + 1)).map
                (fun ws => (if i = len - 1 then (i, Target.base)
                  else (i, Target.layer (i + 1))) :: ws)
            else legacyAux len rest (i + 1)
          else none := rfl
      rw [hEq, if_pos hu, if_pos hs]
      rw [ih (i + 1) (fun L' hL' => h L' (List.mem_cons_of_mem _ hL'))
        (by simp at hlen ⊢; omega)]
      cases rest with
      | nil =>
          have hlast : i = len - 1 := by simp at hlen; omega
          rw [if_pos hlast]
          rfl
      | cons M rest' =>
          have hlast : ¬ i = len - 1 := by simp at hlen; omega
          rw [if_neg hlast]
          have h1 : List.range' i (M :: rest').length.succ =
              i :: (i + 1) :: List.range' (i + 2) rest'.length := rfl
          have h2 : List.range' (i + 1) (M :: rest').length =
              (i + 1) :: List.range' (i + 2) rest'.length := rfl
          rw [h2, show (L :: M :: rest').length = (M :: rest').length.succ from rfl, h1]
          rfl

lemma LayeredLegacy_eq (layers : List Layer)
    (h : ∀ L ∈ layers, L.usable = true ∧ L.settable = true) (hne : layers ≠ []) :
    LayeredLegacy layers =
      BuildResult.ok 0 (wireList (List.range' 0 layers.length)) := by
  unfold LayeredLegacy
  rw [if_neg hne]
  rw [legacyAux_eq layers.length layers 0 h (by omega)]

/-! ## Claim theorems -/

/-- Helper: a non-empty input in which no layer is usable drives
`entryLayer` to stay `-1`, so the final `layers[entryLayer]` panics. -/
lemma Layered_all_empty (layers : List Layer) (hne : layers ≠ [])
    (h : ∀ L ∈ layers, L.usable = false) :
    Layered layers = BuildResult.outOfRange := by
  have hset : ∀ L ∈ layers, L.usable = true → L.settable = true := by
    intro L hL hu
    rw [h L hL] at hu
    cases hu
  rw [Layered_run layers hne hset]
  have h0 : usIdx layers = [] := by
    cases hus : usIdx layers with
    | nil => rfl
    | cons u us =>
        exfalso
        have hu : u ∈ usIdx layers := by
          rw [hus]
          exact List.mem_cons_self _ _
        have hu' : u ∈ usFrom layers 0 := hu
        rw [mem_usFrom] at hu'
        obtain ⟨-, hlt, husable⟩ := hu'
        rw [h _ (layers.get_mem u hlt)] at husable
        cases husable
  rw [h0]

/-- Helper: a usable-but-unsettable layer yields the first offending
usable index under the builder's error predicate. -/
lemma bad_find (layers : List Layer)
    (hbad : ∃ L ∈ layers, L.usable = true ∧ L.settable = false) :
    ∃ k, (usIdx layers).find? (fun u => !settableAt layers u) = some k ∧
      ∃ h : k < layers.length,
        (layers.get ⟨k, h⟩).usable = true ∧ (layers.get ⟨k, h⟩).settable = false := by
  obtain ⟨n, hn, hP⟩ := exists_usable_index layers
    (fun L => L.usable = true ∧ L.settable = false) hbad
  have hmemn : n ∈ usIdx layers :=
    (mem_usFrom layers 0 n).mpr ⟨Nat.zero_le _, hn, hP.1⟩
  have hex : ∃ u ∈ usIdx layers, (!settableAt layers u) = true := by
    refine ⟨n, hmemn, ?_⟩
    rw [settableAt_eq layers n hn, hP.2]
    rfl
  cases hf : (usIdx layers).find? (fun u => !settableAt layers u) with
  | none =>
      exfalso
      rw [List.find?_eq_none] at hf
      obtain ⟨u, hu, hpu⟩ := hex
      exact absurd hpu (by simpa using hf u hu)
  | some k =>
      refine ⟨k, rfl, ?_⟩
      have hkmem : k ∈ usFrom layers 0 := List.mem_of_find?_eq_some hf
      rw [mem_usFrom] at hkmem
      obtain ⟨-, hlt, hu⟩ := hkmem
      refine ⟨hlt, hu, ?_⟩
      have hkpred := List.find?_some hf
      simp only [Bool.not_eq_true'] at hkpred
      rw [settableAt_eq layers k hlt] at hkpred
      exact hkpred

/-- C2: the claim asks that an all-empty, non-empty layer list behave
like `Layered(B, [])`, i.e. return `(B, nil)` (`retBase`).  The code
instead leaves `entryLayer` at `-1` and evaluates `layers[entryLayer]`,
an index-out-of-range panic (`outOfRange`), shown here at the concrete
failing inputs; the empty list itself does return the base. -/
theorem C2_all_empty_panics :
    Layered [Layer.mk false false 0] = BuildResult.outOfRange ∧
    Layered [Layer.mk false false 0, Layer.mk false false 1] =
      BuildResult.outOfRange ∧
    Layered [] = BuildResult.retBase := by
  refine ⟨rfl, rfl, rfl⟩

/-- C4: the `Words` scenario of the test fixtures: the composite built
from `(LayerA, [LayerB, LayerC, LayerD])` yields
`["Artichoke", "Dill", "Cilantro", "Basil"]`, and inserting an empty
placeholder (`[LayerB, LayerC, EMPTY, LayerD]`) yields the identical
sequence. -/
theorem C4_words_scenarios :
    runWords [exLayerB, exLayerC, exLayerD] [ExTag.tB, ExTag.tC, ExTag.tD] 4 =
      some ["Artichoke", "Dill", "Cilantro", "Basil"] ∧
    runWords [exLayerB, exLayerC, exEmpty, exLayerD]
        [ExTag.tB, ExTag.tC, ExTag.tE, ExTag.tD] 5 =
      some ["Artichoke", "Dill", "Cilantro", "Basil"] := by
  refine ⟨rfl, rfl⟩

/-- C6: `Layered(base)` with no additional layers returns the base
unchanged with a nil error (`retBase`), performing no slot write and
visiting no loop position. -/
theorem C6_empty_list_returns_base :
    Layered [] = BuildResult.retBase ∧ LayeredVisits [] = [] := by
  refine ⟨rfl, rfl⟩

/-- C7: `If` returns the layer exactly when the condition holds and the
zero value otherwise; `IfCallback` likewise invokes the factory exactly
once when the condition holds (its result is the factory's value) and
never otherwise (its result does not depend on the factory). -/
theorem C7_conditional_helpers (α : Type) [Inhabited α] (L : α)
    (f g : Unit → α) :
    If true L = L ∧ If false L = (default : α) ∧
    IfCallback true f = f () ∧ IfCallback false f = (default : α) ∧
    IfCallback false f = IfCallback false g := by
  exact ⟨rfl, rfl, rfl, rfl, rfl⟩

/-- C8: `Layered` terminates on every input with its work bounded by the
input length: fuel `layers.length` is never exhausted, and the positions
tested by the outer loop are strictly increasing (a single pass that
never revisits a position), all in range, so at most `layers.length`
iterations run. -/
theorem C8_single_pass (layers : List Layer) :
    Layered layers ≠ BuildResult.outOfFuel ∧
    (LayeredVisits layers).Chain' (· < ·) ∧
    (∀ v ∈ LayeredVisits layers, v < layers.length) ∧
    (LayeredVisits layers).length ≤ layers.length := by
  by_cases hne : layers = []
  · subst hne
    refine ⟨?_, ?_, ?_, ?_⟩ <;> simp [Layered, LayeredVisits, LayeredRun]
  · have hL : Layered layers = (go layers layers.length 0 none []).1 := by
      unfold Layered LayeredRun
      rw [if_neg hne]
    have hV : LayeredVisits layers = (go layers layers.length 0 none []).2 := by
      unfold LayeredVisits LayeredRun
      rw [if_neg hne]
    obtain ⟨h1, h2, h3⟩ := go_props layers layers.length 0 none [] (by omega)
    rw [hL, hV]
    refine ⟨h1, h3, fun v hv => (h2 v hv).2, ?_⟩
    have hpw : (go layers layers.length 0 none []).2.Pairwise (· < ·) :=
      List.chain'_iff_pairwise.mp h3
    have hnodup : (go layers layers.length 0 none []).2.Nodup :=
      hpw.imp Nat.ne_of_lt
    have hsub : (go layers layers.length 0 none []).2.toFinset ⊆
        Finset.range layers.length := by
      intro v hv
      rw [List.mem_toFinset] at hv
      rw [Finset.mem_range]
      exact (h2 v hv).2
    calc (go layers layers.length 0 none []).2.length
        = (go layers layers.length 0 none []).2.toFinset.card :=
          (List.toFinset_card_of_nodup hnodup).symm
      _ ≤ (Finset.range layers.length).card := Finset.card_le_card hsub
      _ = layers.length := Finset.card_range _

/-- C1: with at least one usable layer (and, per the data model, every
usable layer exposing a settable delegate slot), `Layered` returns the
first usable layer of the sequence, and following delegate slots from it
visits exactly the usable indices, in input order, reaching the base at
step (count of usable layers) — never looping and never revisiting. -/
theorem C1_first_usable_chain (layers : List Layer)
    (hset : ∀ L ∈ layers, L.usable = true → L.settable = true)
    (hus : ∃ L ∈ layers, L.usable = true) :
    ∃ (e : Nat) (slots : List (Nat × Target)),
      Layered layers = BuildResult.ok e slots ∧
      (usIdx layers).head? = some e ∧
      (∀ u : Nat, u ∈ usIdx layers ↔
        ∃ h : u < layers.length, (layers.get ⟨u, h⟩).usable = true) ∧
      (usIdx layers).Pairwise (· < ·) ∧
      (∀ k : Nat, k < (usIdx layers).length →
        walk slots (Target.layer e) k =
          ((usIdx layers).get? k).map Target.layer) ∧
      walk slots (Target.layer e) (usIdx layers).length = some Target.base := by
  have hne : layers ≠ [] := by
    obtain ⟨L, hL, -⟩ := hus
    intro h
    subst h
    cases hL
  have hmemiff : ∀ u : Nat, u ∈ usIdx layers ↔
      ∃ h : u < layers.length, (layers.get ⟨u, h⟩).usable = true := by
    intro u
    have hiff := mem_usFrom layers 0 u
    constructor
    · intro hu
      exact (hiff.mp hu).2
    · intro hu
      exact hiff.mpr ⟨Nat.zero_le _, hu⟩
  obtain ⟨n, hn, hun⟩ := exists_usable_index layers (fun L => L.usable = true) hus
  have hne' : usIdx layers ≠ [] := by
    intro h0
    have hmem : n ∈ usIdx layers := (hmemiff n).mpr ⟨hn, hun⟩
    rw [h0] at hmem
    cases hmem
  have hpw : (usIdx layers).Pairwise (· < ·) := usFrom_sorted layers 0
  cases hus' : usIdx layers with
  | nil => exact absurd hus' hne'
  | cons u us =>
      have hpw' : (u :: us).Pairwise (· < ·) := hus' ▸ hpw
      obtain ⟨hw1, hw2⟩ := walk_wireList (u :: us) hpw' (by simp)
      simp only [List.head_cons] at hw1 hw2
      refine ⟨u, wireList (u :: us), ?_, rfl, hus' ▸ hmemiff, hus' ▸ hpw, ?_, hw2⟩
      · rw [Layered_run layers hne hset, hus']
      · intro k hk
        rw [hw1 k hk, List.get?_eq_get hk]
        rfl

/-- C3: `Layered` returns a non-null error exactly when some usable layer
has no settable delegate slot (the only error kind); the error names the
first such index, which is usable and unsettable, and the result then
carries no composite (`err` has no entry index — the model of the
`*new(T)` zero value returned beside the error). -/
theorem C3_error_iff (layers : List Layer) :
    ((∃ (i : Nat) (slots : List (Nat × Target)),
        Layered layers = BuildResult.err i slots) ↔
      ∃ L ∈ layers, L.usable = true ∧ L.settable = false) ∧
    (∀ (i : Nat) (slots : List (Nat × Target)),
      Layered layers = BuildResult.err i slots →
      ∃ h : i < layers.length,
        (layers.get ⟨i, h⟩).usable = true ∧
          (layers.get ⟨i, h⟩).settable = false) := by
  have hnoerr : (∀ L ∈ layers, L.usable = true → L.settable = true) →
      ∀ (i : Nat) (slots : List (Nat × Target)),
      Layered layers ≠ BuildResult.err i slots := by
    intro hset i slots
    by_cases hne : layers = []
    · subst hne
      intro hcon
      exact BuildResult.noConfusion hcon
    · rw [Layered_run layers hne hset]
      cases h : usIdx layers with
      | nil => intro hcon; exact BuildResult.noConfusion hcon
      | cons u us => intro hcon; exact BuildResult.noConfusion hcon
  have herr_imp_bad : (∃ (i : Nat) (slots : List (Nat × Target)),
      Layered layers = BuildResult.err i slots) →
      ∃ L ∈ layers, L.usable = true ∧ L.settable = false := by
    rintro ⟨i, slots, herr⟩
    by_contra hno
    push_neg at hno
    have hset : ∀ L ∈ layers, L.usable = true → L.settable = true := by
      intro L hL hu
      have hns := hno L hL hu
      cases hsl : L.settable
      · exact absurd hsl hns
      · rfl
    exact hnoerr hset i slots herr
  have hbad_imp_err : (∃ L ∈ layers, L.usable = true ∧ L.settable = false) →
      ∃ (i : Nat) (slots : List (Nat × Target)),
      Layered layers = BuildResult.err i slots := by
    intro hbad
    obtain ⟨k, hk, -⟩ := bad_find layers hbad
    exact ⟨k, _, Layered_err layers k hk⟩
  refine ⟨⟨herr_imp_bad, hbad_imp_err⟩, ?_⟩
  intro i slots herr
  obtain ⟨k, hk, hkprop⟩ := bad_find layers (herr_imp_bad ⟨i, slots, herr⟩)
  have heq := Layered_err layers k hk
  rw [herr] at heq
  injection heq with h1 h2
  subst h1
  exact hkprop

/-- C5: empty placeholders are transparent: with `L1`, `L2` usable (and,
per the data model, settable) and `E` empty, `Layered [L1, E, L2]` and
`Layered [L1, L2]` both return the layer at position 0 (`L1`), the
object chain visited from the composite is `[L1, L2]` then the base in
both builds, and `E`'s position receives no slot write. -/
theorem C5_transparent (L1 E L2 : Layer)
    (h1 : L1.usable = true) (h1s : L1.settable = true)
    (h2 : L2.usable = true) (h2s : L2.settable = true)
    (hE : E.usable = false) :
    Layered [L1, E, L2] =
      BuildResult.ok 0 [(0, Target.layer 2), (2, Target.base)] ∧
    Layered [L1, L2] =
      BuildResult.ok 0 [(0, Target.layer 1), (1, Target.base)] ∧
    slotOf [(0, Target.layer 2), (2, Target.base)] 1 = none ∧
    chainObjs [L1, E, L2] [(0, Target.layer 2), (2, Target.base)] 3
      (Target.layer 0) = some [L1, L2] ∧
    chainObjs [L1, L2] [(0, Target.layer 1), (1, Target.base)] 2
      (Target.layer 0) = some [L1, L2] := by
  have hus1 : usIdx [L1, E, L2] = [0, 2] := by
    simp [usIdx, usFrom, usFromAux, h1, hE, h2]
  have hus2 : usIdx [L1, L2] = [0, 1] := by
    simp [usIdx, usFrom, usFromAux, h1, h2]
  have hset1 : ∀ L ∈ [L1, E, L2], L.usable = true → L.settable = true := by
    intro L hL hu
    rcases (by simpa using hL : L = L1 ∨ L = E ∨ L = L2) with rfl | rfl | rfl
    · exact h1s
    · rw [hE] at hu
      cases hu
    · exact h2s
  have hset2 : ∀ L ∈ [L1, L2], L.usable = true → L.settable = true := by
    intro L hL hu
    rcases (by simpa using hL : L = L1 ∨ L = L2) with rfl | rfl
    · exact h1s
    · exact h2s
  refine ⟨?_, ?_, rfl, rfl, rfl⟩
  · rw [Layered_run [L1, E, L2] (by simp) hset1, hus1]
    rfl
  · rw [Layered_run [L1, L2] (by simp) hset2, hus2]
    rfl

/-- C9: when construction fails at the first usable-but-unsettable index
`k`, every usable layer before `k` has already had its delegate slot
written — each pointing to the next usable index, the last of them to
`k` itself — and these writes are kept (not rolled back) even though the
error is returned with no composite. -/
theorem C9_partial_wiring (layers : List Layer)
    (hbad : ∃ L ∈ layers, L.usable = true ∧ L.settable = false) :
    ∃ (k : Nat) (slots : List (Nat × Target)),
      Layered layers = BuildResult.err k slots ∧
      slots = wirePartial (((usIdx layers).takeWhile
        (fun u => settableAt layers u)) ++ [k]) ∧
      (∃ h : k < layers.length,
        (layers.get ⟨k, h⟩).usable = true ∧
          (layers.get ⟨k, h⟩).settable = false) ∧
      (∀ u : Nat, (∃ h : u < layers.length, (layers.get ⟨u, h⟩).usable = true) →
        u < k → u ∈ (usIdx layers).takeWhile (fun u => settableAt layers u)) ∧
      (∀ m : Nat, m + 1 < (((usIdx layers).takeWhile
          (fun u => settableAt layers u)) ++ [k]).length →
        slotOf slots (((((usIdx layers).takeWhile
            (fun u => settableAt layers u)) ++ [k]).get? m).getD 0) =
          ((((usIdx layers).takeWhile
            (fun u => settableAt layers u)) ++ [k]).get? (m + 1)).map
              Target.layer) := by
  obtain ⟨k, hk, hkprop⟩ := bad_find layers hbad
  have hpw : (usIdx layers).Pairwise (· < ·) := usFrom_sorted layers 0
  have hsplit : (usIdx layers).takeWhile (fun u => settableAt layers u) ++
      (usIdx layers).dropWhile (fun u => settableAt layers u) = usIdx layers :=
    List.takeWhile_append_dropWhile _ _
  have hdw : ((usIdx layers).dropWhile (fun u => settableAt layers u)).head? =
      some k := by
    rw [← find?_bad_head_dropWhile]
    exact hk
  obtain ⟨tl, htl⟩ : ∃ tl, (usIdx layers).dropWhile (fun u => settableAt layers u) =
      k :: tl := by
    cases hdd : (usIdx layers).dropWhile (fun u => settableAt layers u) with
    | nil =>
        rw [hdd] at hdw
        cases hdw
    | cons a tl =>
        rw [hdd] at hdw
        simp only [List.head?_cons, Option.some.injEq] at hdw
        exact ⟨tl, by rw [hdw]⟩
  have hsplit' : usIdx layers =
      (usIdx layers).takeWhile (fun u => settableAt layers u) ++ (k :: tl) := by
    rw [← htl, hsplit]
  have hpw2 : ((usIdx layers).takeWhile (fun u => settableAt layers u) ++
      (k :: tl)).Pairwise (· < ·) := hsplit' ▸ hpw
  have hq : ((usIdx layers).takeWhile (fun u => settableAt layers u) ++
      [k]).Pairwise (· < ·) := by
    refine List.Pairwise.sublist ?_ hpw2
    apply List.Sublist.append_left
    exact List.cons_sublist_cons.mpr (List.nil_sublist tl)
  refine ⟨k, _, Layered_err layers k hk, rfl, hkprop, ?_, ?_⟩
  · intro u hu hult
    obtain ⟨hult', huse⟩ := hu
    have humem : u ∈ usIdx layers :=
      (mem_usFrom layers 0 u).mpr ⟨Nat.zero_le _, hult', huse⟩
    rw [hsplit'] at humem
    rcases List.mem_append.mp humem with h | h
    · exact h
    · exfalso
      rcases List.mem_cons.mp h with rfl | h
      · omega
      · have hparts := List.pairwise_append.mp hpw2
        have hkb := (List.pairwise_cons.mp hparts.2.1).1 u h
        omega
  · intro m hm
    have hmlt : m < ((usIdx layers).takeWhile (fun u => settableAt layers u) ++
        [k]).length := by omega
    have hget := wirePartial_slot ((usIdx layers).takeWhile
      (fun u => settableAt layers u) ++ [k]) hq m hm
    rw [List.get?_eq_get hmlt, List.get?_eq_get hm]
    simp only [Option.getD_some, Option.map_some']
    exact hget

/-- C10: on inputs where every layer is usable and every delegate slot is
settable, the legacy builder of layers.go and the current builder agree:
both wire each layer's slot to the immediately following layer, the last
layer's slot to the base, and both return the layer at position 0 with a
nil error. -/
theorem C10_legacy_equiv (layers : List Layer)
    (h : ∀ L ∈ layers, L.usable = true ∧ L.settable = true) :
    LayeredLegacy layers = Layered layers ∧
    (layers ≠ [] → ∃ slots : List (Nat × Target),
      Layered layers = BuildResult.ok 0 slots ∧
      (∀ i : Nat, i + 1 < layers.length →
        slotOf slots i = some (Target.layer (i + 1))) ∧
      slotOf slots (layers.length - 1) = some Target.base) := by
  by_cases hne : layers = []
  · subst hne
    exact ⟨rfl, fun hcon => absurd rfl hcon⟩
  · have husall : ∀ L ∈ layers, L.usable = true := fun L hL => (h L hL).1
    have hset : ∀ L ∈ layers, L.usable = true → L.settable = true :=
      fun L hL _ => (h L hL).2
    have hrange : usIdx layers = List.range' 0 layers.length :=
      usIdx_all layers husall
    obtain ⟨n, hn⟩ : ∃ n, layers.length = n + 1 := by
      cases hl : layers.length with
      | zero => exact absurd (List.length_eq_zero.mp hl) hne
      | succ n => exact ⟨n, rfl⟩
    have hcons : List.range' 0 layers.length = 0 :: List.range' 1 n := by
      rw [hn]
      rfl
    have hL : Layered layers =
        BuildResult.ok 0 (wireList (List.range' 0 layers.length)) := by
      rw [Layered_run layers hne hset, hrange, hcons]
    have hpwq : (List.range' 0 layers.length).Pairwise (· < ·) := by
      rw [← hrange]
      exact usFrom_sorted layers 0
    constructor
    · rw [LayeredLegacy_eq layers h hne, hL]
    · intro _
      refine ⟨wireList (List.range' 0 layers.length), hL, ?_, ?_⟩
      · intro i hi
        have hm : i + 1 < (List.range' 0 layers.length).length := by
          rw [List.length_range']
          exact hi
        have hg := wireList_slot (List.range' 0 layers.length) hpwq i hm
        have hg1 : (List.range' 0 layers.length).get ⟨i, by omega⟩ = i := by
          rw [List.get_range']
          omega
        have hg2 : (List.range' 0 layers.length).get ⟨i + 1, hm⟩ = i + 1 := by
          rw [List.get_range']
          omega
        rw [hg1, hg2] at hg
        exact hg
      · have hq_ne : List.range' 0 layers.length ≠ [] := by
          rw [hcons]
          simp
        have hg := wireList_last (List.range' 0 layers.length) hpwq hq_ne
        have hgl : (List.range' 0 layers.length).getLast hq_ne =
            layers.length - 1 := by
          rw [List.getLast_eq_get, List.get_range', List.length_range']
          omega
        rw [hgl] at hg
        exact hg

/-! ## Witnesses -/

/-- Witness for C1 at a concrete input whose first usable layer is at
position 1. -/
theorem C1_witness :
    ∃ (e : Nat) (slots : List (Nat × Target)),
      Layered [exEmpty, exLayerB, exLayerD] = BuildResult.ok e slots ∧
      (usIdx [exEmpty, exLayerB, exLayerD]).head? = some e := by
  obtain ⟨e, slots, ha, hb, -⟩ :=
    C1_first_usable_chain [exEmpty, exLayerB, exLayerD] (by decide) (by decide)
  exact ⟨e, slots, ha, hb⟩

/-- Witness for C3 at a concrete input with a usable, unsettable layer. -/
theorem C3_witness :
    ∃ (i : Nat) (slots : List (Nat × Target)),
      Layered [Layer.mk true false 7] = BuildResult.err i slots :=
  (C3_error_iff [Layer.mk true false 7]).1.mpr
    ⟨Layer.mk true false 7, by simp, rfl, rfl⟩

/-- Witness for C5 at concrete layer values. -/
theorem C5_witness :
    Layered [exLayerB, exEmpty, exLayerD] =
      BuildResult.ok 0 [(0, Target.layer 2), (2, Target.base)] ∧
    Layered [exLayerB, exLayerD] =
      BuildResult.ok 0 [(0, Target.layer 1), (1, Target.base)] :=
  ⟨(C5_transparent exLayerB exEmpty exLayerD rfl rfl rfl rfl rfl).1,
   (C5_transparent exLayerB exEmpty exLayerD rfl rfl rfl rfl rfl).2.1⟩

/-- Witness for C9: the builder fails at index 2 with layer 0 already
wired to it. -/
theorem C9_witness :
    ∃ (k : Nat) (slots : List (Nat × Target)),
      Layered [exLayerB, exEmpty, Layer.mk true false 9] =
        BuildResult.err k slots ∧ slots ≠ [] := by
  obtain ⟨k, slots, ha, hb, -⟩ :=
    C9_partial_wiring [exLayerB, exEmpty, Layer.mk true false 9] (by decide)
  refine ⟨k, slots, ha, ?_⟩
  have hk2 : k = 2 := by
    have := ha
    rw [show Layered [exLayerB, exEmpty, Layer.mk true false 9] =
      BuildResult.err 2 [(0, Target.layer 2)] from rfl] at this
    injection this with h1 h2
    exact h1.symm
  subst hk2
  rw [hb]
  decide

/-- Witness for C10 at a concrete all-usable input. -/
theorem C10_witness :
    LayeredLegacy [exLayerB, exLayerC] = Layered [exLayerB, exLayerC] ∧
    ∃ slots : List (Nat × Target),
      Layered [exLayerB, exLayerC] = BuildResult.ok 0 slots := by
  obtain ⟨heq, hex⟩ := C10_legacy_equiv [exLayerB, exLayerC] (by decide)
  obtain ⟨slots, h1, -⟩ := hex (by simp)
  exact ⟨heq, slots, h1⟩
